import Mathlib

/-!
Shallow embedding of the bracket scoring and what-if override core of
`src/app.py` (M-Rating/mmodel-edge-radar).

Python dictionaries are modelled as association lists with unique keys kept
in insertion order; `d[k] = v` is `dictInsert` (update in place when the key
exists, append otherwise), `d.get(k)` is `dictGet`/the `...Lookup` helpers.
A pandas DataFrame of result rows is a `List ResultRecord`; the dict
comprehensions in `score_brackets` make later rows overwrite earlier ones,
so the lookup helpers return the LAST matching row.  A null (None/NaN) pick
value is `Option.none`; Python's `picked == actual` is false whenever
`picked` is null, which the `match` in `pickStep` reflects.  The pandas
`sort_values(["score", "max_possible"], ascending=[False, False])` is
modelled by `List.insertionSort` on the same lexicographic descending key;
the sort kind only affects the relative order of exact ties, which the spec
leaves open.
-/

/-- Result rows (`results_df` rows and `st.session_state.whatif_results` rows):
`matchup_id`, `winner_id`, `round` (the code coerces `round` with `int(...)`;
rounds are positive integers per the loader contract, modelled as `Nat`). -/
structure ResultRecord where
  matchup_id : String
  winner_id : String
  round : Nat
deriving DecidableEq

/-- `ROUND_POINTS = {1: 1, 2: 2, 3: 4, 4: 8, 5: 16, 6: 32}` (src/app.py line 14);
`none` models a key absent from the Python dict. -/
def ROUND_POINTS : Nat → Option Nat
  | 1 => some 1
  | 2 => some 2
  | 3 => some 4
  | 4 => some 8
  | 5 => some 16
  | 6 => some 32
  | _ => none

/-- Lookup in the dict `{r["matchup_id"]: r["winner_id"] for _, r in results_df.iterrows()}`
(src/app.py line 56): the comprehension lets later rows overwrite earlier ones,
so the value is the last row carrying the key. -/
def resultsLookup (rows : List ResultRecord) (mid : String) : Option String :=
  ((rows.filter fun r => r.matchup_id == mid).getLast?).map fun r => r.winner_id

/-- Lookup in the dict `{r["matchup_id"]: int(r["round"]) for _, r in results_df.iterrows()}`
(src/app.py line 57), with the same last-row-wins semantics. -/
def roundsLookup (rows : List ResultRecord) (mid : String) : Option Nat :=
  ((rows.filter fun r => r.matchup_id == mid).getLast?).map fun r => r.round

/-- Inner dict of one pick source: matchup_id mapped to the recorded pick
(`none` when the recorded value is null). -/
abbrev PickMap := List (String × Option String)

/-- Outer dict of `snapshot_picks_to_brackets`: source name mapped to its picks. -/
abbrev Picks := List (String × PickMap)

/-- Membership test `k in d` for a Python dict modelled as an association list. -/
def keyMem {α : Type _} (d : List (String × α)) (k : String) : Bool :=
  d.any fun p => p.1 == k

/-- Lookup `d.get(k)` for a Python dict modelled as an association list. -/
def dictGet {α : Type _} (d : List (String × α)) (k : String) : Option α :=
  (d.find? fun p => p.1 == k).map fun p => p.2

/-- Assignment `d[mid] = v` on an inner pick dict: update in place when the
key exists, append otherwise. -/
def dictInsert (d : PickMap) (mid : String) (v : Option String) : PickMap :=
  if d.any fun p => p.1 == mid then
    d.map fun p => if p.1 = mid then (p.1, v) else p
  else d ++ [(mid, v)]

/-- `out[src][mid] = v` after `out.setdefault(src, {})` (src/app.py lines 49 and 52):
when `src` is already a key its inner dict is updated, otherwise a fresh inner
dict holding only `mid` is appended. -/
def dictUpsertInner (out : Picks) (src mid : String) (v : Option String) : Picks :=
  if out.any fun p => p.1 == src then
    out.map fun p => if p.1 = src then (p.1, dictInsert p.2 mid v) else p
  else out ++ [(src, dictInsert [] mid v)]

/-- One row of `bracket_df`: its `matchup_id` plus `row.get(col)` for the pick
columns (`none` both when the column is absent and when the value is null). -/
structure BracketRow where
  matchup_id : String
  getCol : String → Option String

/-- The bracket DataFrame: the set of columns it carries (for the
`col in bracket_df.columns` test) and its rows in order. -/
structure BracketDF where
  cols : List String
  rows : List BracketRow

/-- `pick_cols` (src/app.py line 45). -/
def pick_cols : List String :=
  ["kenpom_winner", "torvik_winner", "espn_consensus_winner", "cbs_consensus_winner"]

/-- `col.replace("_winner", "")` evaluated on the concrete members of
`pick_cols` (src/app.py line 52). -/
def replace_winner (col : String) : String :=
  if col = "kenpom_winner" then "kenpom"
  else if col = "torvik_winner" then "torvik"
  else if col = "espn_consensus_winner" then "espn_consensus"
  else if col = "cbs_consensus_winner" then "cbs_consensus"
  else col

/-- Body of the row loop of `snapshot_picks_to_brackets` (src/app.py lines 47-52):
record the primary pick under `"m_rating"`, then each alternate column present
in the DataFrame under its derived source name. -/
def extractStep (cols : List String) (out : Picks) (row : BracketRow) : Picks :=
  let out1 := dictUpsertInner out "m_rating" row.matchup_id (row.getCol "predicted_winner")
  pick_cols.foldl
    (fun acc col =>
      if col ∈ cols then dictUpsertInner acc (replace_winner col) row.matchup_id (row.getCol col)
      else acc)
    out1

/-- `snapshot_picks_to_brackets` (src/app.py lines 44-53): starts from
`{"m_rating": {}}` and folds the row loop over the bracket rows. -/
def snapshot_picks_to_brackets (df : BracketDF) : Picks :=
  df.rows.foldl (extractStep df.cols) [("m_rating", [])]

/-- Body of the pick loop of `score_brackets` (src/app.py lines 62-70): skip a
pick with unknown round, otherwise add the round's points (0 for a round
absent from `ROUND_POINTS`) to `max_possible`, and to `score` exactly when the
recorded pick equals the effective winner. -/
def pickStep (res : List ResultRecord) (acc : Nat × Nat) (p : String × Option String) :
    Nat × Nat :=
  match roundsLookup res p.1 with
  | none => acc
  | some rnd =>
    let pts := (ROUND_POINTS rnd).getD 0
    let sc :=
      match resultsLookup res p.1, p.2 with
      | some actual, some picked => if picked = actual then acc.1 + pts else acc.1
      | _, _ => acc.1
    (sc, acc.2 + pts)

/-- The `(score, max_possible)` totals of one source's bracket, as accumulated
by the pick loop of `score_brackets`. -/
def scorePair (res : List ResultRecord) (bracket : PickMap) : Nat × Nat :=
  bracket.foldl (pickStep res) (0, 0)

/-- One leaderboard row `{"bracket": name, "score": ..., "max_possible": ...}`
(src/app.py line 71). -/
structure LBRow where
  bracket : String
  score : Nat
  max_possible : Nat
deriving DecidableEq

/-- The order `sort_values(["score", "max_possible"], ascending=[False, False])`
sorts by: `a` may precede `b` when `a` has the larger score, or equal score and
at least as large a `max_possible`. -/
def lbRel (a b : LBRow) : Prop :=
  b.score < a.score ∨ (b.score = a.score ∧ b.max_possible ≤ a.max_possible)

instance : DecidableRel lbRel := fun a b => by unfold lbRel; infer_instance

instance : IsTotal LBRow lbRel := ⟨by intro a b; unfold lbRel; omega⟩

instance : IsTrans LBRow lbRel := ⟨by intro a b c hab hbc; unfold lbRel at hab hbc ⊢; omega⟩

/-- `score_brackets` (src/app.py lines 55-72): one row per pick source, sorted
descending by score then by max_possible. -/
def score_brackets (picks : Picks) (res : List ResultRecord) : List LBRow :=
  let rows := picks.map fun nb =>
    { bracket := nb.1
      score := (scorePair res nb.2).1
      max_possible := (scorePair res nb.2).2 : LBRow }
  List.insertionSort lbRel rows

/-- `current_results` (src/app.py lines 74-82): with an empty overlay the base
is returned as is; otherwise base rows whose matchup_id occurs in the overlay
are dropped and the overlay rows are concatenated after the remaining base. -/
def current_results (base overrides : List ResultRecord) : List ResultRecord :=
  if overrides.isEmpty then base
  else
    let base1 :=
      if base.isEmpty then base
      else base.filter fun r => !(overrides.any fun o => o.matchup_id == r.matchup_id)
    base1 ++ overrides

/-- The Apply What-If button handler (src/app.py lines 132-142): when the
matchup already has an overlay row, its `winner_id` and `round` are assigned
in place on every matching row; otherwise the new row is appended. -/
def apply_override (ov : List ResultRecord) (mid winner : String) (rnd : Nat) :
    List ResultRecord :=
  if !ov.isEmpty && ov.any fun r => r.matchup_id == mid then
    ov.map fun r =>
      if r.matchup_id = mid then { r with winner_id := winner, round := rnd } else r
  else ov ++ [{ matchup_id := mid, winner_id := winner, round := rnd }]

/-- Per-pick contribution to `max_possible`: the round's points when the
matchup has an effective record, 0 otherwise (what one iteration of the pick
loop adds to `max_possible`). -/
def maxContrib (res : List ResultRecord) (p : String × Option String) : Nat :=
  match roundsLookup res p.1 with
  | none => 0
  | some rnd => (ROUND_POINTS rnd).getD 0

/-- Per-pick contribution to `score`: the round's points exactly when the
recorded pick equals the effective winner (what one iteration of the pick
loop adds to `score`). -/
def scoreContrib (res : List ResultRecord) (p : String × Option String) : Nat :=
  match roundsLookup res p.1 with
  | none => 0
  | some rnd =>
    match resultsLookup res p.1, p.2 with
    | some actual, some picked => if picked = actual then (ROUND_POINTS rnd).getD 0 else 0
    | _, _ => 0

/-- Whether the extractor output maps source `s` to an inner dict carrying the
key `k` (the Python test `k in out[s]`). -/
def innerHasKey (out : Picks) (s k : String) : Bool :=
  match dictGet out s with
  | some inner => keyMem inner k
  | none => false

/-! ## Helper lemmas -/

/-- Membership of a matchup_id among a row list's keys, phrased as the
`List.any` test the embedded code uses. -/
theorem any_key_iff (l : List ResultRecord) (mid : String) :
    (l.any fun r => r.matchup_id == mid) = true ↔ mid ∈ l.map fun r => r.matchup_id := by
  rw [List.any_eq_true]
  constructor
  · rintro ⟨r, hr, he⟩
    exact List.mem_map.mpr ⟨r, hr, beq_iff_eq.mp he⟩
  · intro h
    rcases List.mem_map.mp h with ⟨r, hr, he⟩
    exact ⟨r, hr, beq_iff_eq.mpr he⟩

/-- Filtering a row list for an absent matchup_id gives the empty list. -/
theorem filter_key_eq_nil (l : List ResultRecord) (mid : String)
    (h : mid ∉ l.map fun r => r.matchup_id) :
    l.filter (fun r => r.matchup_id == mid) = [] := by
  refine List.filter_eq_nil_iff.mpr fun r hr => ?_
  simp only [beq_iff_eq]
  intro he
  exact h (by simpa [he] using List.mem_map_of_mem (fun r => r.matchup_id) hr)

/-- An outer filter that only keeps elements the inner filter kept can be
applied directly to the original list. -/
theorem filter_filter_of_imp {α : Type _} (p q : α → Bool)
    (h : ∀ a, q a = true → p a = true) :
    ∀ l : List α, (l.filter p).filter q = l.filter q := by
  intro l
  induction l with
  | nil => rfl
  | cons a t ih =>
    cases hpa : p a <;> cases hqa : q a <;>
      simp [List.filter_cons, hpa, hqa, ih]
    exact absurd (h a hqa) (by simp [hpa])

/-- The in-place What-If update leaves every row's matchup_id unchanged. -/
theorem update_keys (ov : List ResultRecord) (mid w : String) (rnd : Nat) :
    ((ov.map fun r =>
        if r.matchup_id = mid then { r with winner_id := w, round := rnd } else r).map
      fun r => r.matchup_id) = ov.map fun r => r.matchup_id := by
  rw [List.map_map]
  refine List.map_congr_left fun r _ => ?_
  by_cases h : r.matchup_id = mid <;> simp [h]

/-! ## C3 -/

/-- C3: merging any base result set with an empty overlay returns the base
unchanged; `current_results` is a plain function of its two inputs, so it is
deterministic and side-effect-free by construction. -/
theorem C3_merge_empty_overlay_identity (base : List ResultRecord) :
    current_results base [] = base := by
  simp [current_results]

/-! ## C2 -/

/-- The non-empty-overlay branch of `current_results` always equals the
filtered base followed by the overlay (the `base.empty` test is redundant). -/
theorem current_results_cons (base : List ResultRecord) (o : ResultRecord)
    (ov : List ResultRecord) :
    current_results base (o :: ov) =
      (base.filter fun r => !((o :: ov).any fun x => x.matchup_id == r.matchup_id))
        ++ (o :: ov) := by
  cases base <;> simp [current_results]

/-- Merging with a singleton overlay keeps exactly the base rows whose
matchup_id differs from the override's, followed by the override. -/
theorem current_results_singleton (base : List ResultRecord) (O : ResultRecord) :
    current_results base [O] =
      (base.filter fun r => !(O.matchup_id == r.matchup_id)) ++ [O] := by
  rw [current_results_cons]
  congr 1
  refine List.filter_congr fun r _ => ?_
  simp

/-- C2: merging a base result set with a singleton overlay record O yields an
effective set whose rows for O's matchup_id are exactly [O] (so that id's
winner_id and round are O's), whose rows for every other matchup_id are
exactly the base rows for that id, and which contains O even when O's
matchup_id is absent from the base. -/
theorem C2_merge_singleton_override (base : List ResultRecord) (O : ResultRecord) :
    ((current_results base [O]).filter fun r => r.matchup_id == O.matchup_id) = [O]
    ∧ (∀ m, m ≠ O.matchup_id →
        ((current_results base [O]).filter fun r => r.matchup_id == m) =
          base.filter fun r => r.matchup_id == m)
    ∧ O ∈ current_results base [O] := by
  rw [current_results_singleton]
  refine ⟨?_, fun m hm => ?_, by simp⟩
  · rw [List.filter_append]
    have h1 : ((base.filter fun r => !(O.matchup_id == r.matchup_id)).filter
        fun r => r.matchup_id == O.matchup_id) = [] := by
      refine List.filter_eq_nil_iff.mpr fun r hr => ?_
      have hq := List.of_mem_filter hr
      simp only [Bool.not_eq_true', beq_eq_false_iff_ne] at hq
      simp only [beq_iff_eq]
      exact fun he => hq he.symm
    rw [h1]
    simp
  · rw [List.filter_append]
    have h2 : (([O] : List ResultRecord).filter fun r => r.matchup_id == m) = [] := by
      have hOm : (O.matchup_id == m) = false := beq_eq_false_iff_ne.mpr fun h => hm h.symm
      simp [List.filter_cons, hOm]
    rw [h2, List.append_nil]
    refine filter_filter_of_imp _ _ (fun r hr => ?_) base
    have : r.matchup_id = m := beq_iff_eq.mp hr
    simp only [Bool.not_eq_true', beq_eq_false_iff_ne]
    intro hc
    exact hm (by rw [← this, ← hc])

/-! ## C1 -/

/-- When the matchup already has an overlay row, the What-If handler takes the
in-place-update branch. -/
theorem apply_override_present (ov : List ResultRecord) (mid w : String) (rnd : Nat)
    (hmem : mid ∈ ov.map fun r => r.matchup_id) :
    apply_override ov mid w rnd =
      ov.map fun r =>
        if r.matchup_id = mid then { r with winner_id := w, round := rnd } else r := by
  unfold apply_override
  have hany : (ov.any fun r => r.matchup_id == mid) = true := (any_key_iff ov mid).mpr hmem
  have hne : ov.isEmpty = false := by
    cases ov
    · simp at hmem
    · rfl
  simp [hany, hne]

/-- When the matchup has no overlay row, the What-If handler appends the new
row. -/
theorem apply_override_absent (ov : List ResultRecord) (mid w : String) (rnd : Nat)
    (hmem : mid ∉ ov.map fun r => r.matchup_id) :
    apply_override ov mid w rnd = ov ++ [{ matchup_id := mid, winner_id := w, round := rnd }] := by
  unfold apply_override
  have hany : (ov.any fun r => r.matchup_id == mid) = false := by
    rw [Bool.eq_false_iff]
    intro hc
    exact hmem ((any_key_iff ov mid).mp hc)
  simp [hany]

/-- After the in-place update, the rows carrying the overridden matchup_id are
exactly the one updated record (given unique matchup_ids with the id present). -/
theorem filter_update_self (mid w : String) (rnd : Nat) :
    ∀ ov : List ResultRecord, (ov.map fun r => r.matchup_id).Nodup →
      mid ∈ (ov.map fun r => r.matchup_id) →
      ((ov.map fun r =>
          if r.matchup_id = mid then { r with winner_id := w, round := rnd } else r).filter
        fun r => r.matchup_id == mid) = [{ matchup_id := mid, winner_id := w, round := rnd }] := by
  intro ov
  induction ov with
  | nil =>
    intro _ hmem
    simp at hmem
  | cons r t ih =>
    intro h hmem
    simp only [List.map_cons, List.nodup_cons] at h
    obtain ⟨hnotin, hnd⟩ := h
    by_cases hr : r.matchup_id = mid
    · have hmap : (t.map fun x =>
          if x.matchup_id = mid then { x with winner_id := w, round := rnd } else x) = t := by
        have hid : ∀ x ∈ t,
            (if x.matchup_id = mid then { x with winner_id := w, round := rnd } else x) = id x := by
          intro x hx
          have hxne : x.matchup_id ≠ mid := by
            intro he
            apply hnotin
            rw [hr]
            exact he ▸ List.mem_map_of_mem (fun y => y.matchup_id) hx
          simp [hxne]
        exact (List.map_congr_left hid).trans (List.map_id t)
      have hupd : ((if r.matchup_id = mid then { r with winner_id := w, round := rnd } else r)
          : ResultRecord) = { matchup_id := mid, winner_id := w, round := rnd } := by
        cases r
        simp_all
      rw [List.map_cons, hmap, hupd, List.filter_cons]
      have hkey : (({ matchup_id := mid, winner_id := w, round := rnd }
          : ResultRecord).matchup_id == mid) = true := by simp
      rw [if_pos hkey]
      have ht : t.filter (fun x => x.matchup_id == mid) = [] :=
        filter_key_eq_nil t mid (hr ▸ hnotin)
      rw [ht]
    · simp only [List.map_cons, List.mem_cons] at hmem
      rcases hmem with he | hmem2
      · exact absurd he.symm hr
      rw [List.map_cons, if_neg hr, List.filter_cons]
      have hkey : (r.matchup_id == mid) = false := beq_eq_false_iff_ne.mpr hr
      rw [if_neg (by simp [hkey])]
      exact ih hnd hmem2

/-- C1: the What-If upsert maintains at-most-one-overlay-record-per-matchup_id.
Given an overlay with pairwise distinct matchup_ids: the result again has
distinct matchup_ids; overriding an existing matchup_id keeps the record count
and leaves exactly the updated record (new winner_id and round) for that id;
overriding a fresh matchup_id appends exactly the one new record; and two
successive overrides of the same matchup_id leave exactly one record for it,
carrying the latest winner_id and round. -/
theorem C1_apply_override_upsert (ov : List ResultRecord) (mid w : String) (rnd : Nat)
    (h : (ov.map fun r => r.matchup_id).Nodup) :
    ((apply_override ov mid w rnd).map fun r => r.matchup_id).Nodup
    ∧ (mid ∈ (ov.map fun r => r.matchup_id) →
        (apply_override ov mid w rnd).length = ov.length
        ∧ (apply_override ov mid w rnd).filter (fun r => r.matchup_id == mid)
            = [{ matchup_id := mid, winner_id := w, round := rnd }])
    ∧ (mid ∉ (ov.map fun r => r.matchup_id) →
        apply_override ov mid w rnd
          = ov ++ [{ matchup_id := mid, winner_id := w, round := rnd }])
    ∧ (∀ w2 rnd2,
        (apply_override (apply_override ov mid w rnd) mid w2 rnd2).filter
          (fun r => r.matchup_id == mid)
          = [{ matchup_id := mid, winner_id := w2, round := rnd2 }]) := by
  have hnodup : ((apply_override ov mid w rnd).map fun r => r.matchup_id).Nodup := by
    by_cases hmem : mid ∈ ov.map fun r => r.matchup_id
    · rw [apply_override_present ov mid w rnd hmem, update_keys]
      exact h
    · rw [apply_override_absent ov mid w rnd hmem]
      simp only [List.map_append, List.map_cons, List.map_nil]
      simp [List.nodup_append, h, hmem]
  have hmem2 : mid ∈ (apply_override ov mid w rnd).map fun r => r.matchup_id := by
    by_cases hmem : mid ∈ ov.map fun r => r.matchup_id
    · rw [apply_override_present ov mid w rnd hmem, update_keys]
      exact hmem
    · rw [apply_override_absent ov mid w rnd hmem]
      simp
  refine ⟨hnodup, fun hmem => ⟨?_, ?_⟩, fun habs => apply_override_absent ov mid w rnd habs,
    fun w2 rnd2 => ?_⟩
  · rw [apply_override_present ov mid w rnd hmem]
    exact List.length_map ov _
  · rw [apply_override_present ov mid w rnd hmem]
    exact filter_update_self mid w rnd ov h hmem
  · rw [apply_override_present _ mid w2 rnd2 hmem2]
    exact filter_update_self mid w2 rnd2 _ hnodup hmem2

/-- Witness for C1 at a concrete overlay: overriding matchup m1 (already
present) then checking all four conjuncts at that input. -/
theorem C1_apply_override_upsert_witness :
    (((apply_override [⟨"m1", "A", 1⟩, ⟨"m2", "B", 2⟩] "m1" "C" 1).map
        fun r => r.matchup_id).Nodup
      ∧ ("m1" ∈ (([⟨"m1", "A", 1⟩, ⟨"m2", "B", 2⟩] : List ResultRecord).map
            fun r => r.matchup_id) →
          (apply_override [⟨"m1", "A", 1⟩, ⟨"m2", "B", 2⟩] "m1" "C" 1).length
              = ([⟨"m1", "A", 1⟩, ⟨"m2", "B", 2⟩] : List ResultRecord).length
          ∧ (apply_override [⟨"m1", "A", 1⟩, ⟨"m2", "B", 2⟩] "m1" "C" 1).filter
              (fun r => r.matchup_id == "m1") = [{ matchup_id := "m1", winner_id := "C", round := 1 }])
      ∧ ("m1" ∉ (([⟨"m1", "A", 1⟩, ⟨"m2", "B", 2⟩] : List ResultRecord).map
            fun r => r.matchup_id) →
          apply_override [⟨"m1", "A", 1⟩, ⟨"m2", "B", 2⟩] "m1" "C" 1
            = [⟨"m1", "A", 1⟩, ⟨"m2", "B", 2⟩] ++ [{ matchup_id := "m1", winner_id := "C", round := 1 }])
      ∧ (∀ w2 rnd2,
          (apply_override (apply_override [⟨"m1", "A", 1⟩, ⟨"m2", "B", 2⟩] "m1" "C" 1) "m1" w2 rnd2).filter
            (fun r => r.matchup_id == "m1")
            = [{ matchup_id := "m1", winner_id := w2, round := rnd2 }])) :=
  C1_apply_override_upsert [⟨"m1", "A", 1⟩, ⟨"m2", "B", 2⟩] "m1" "C" 1 (by decide)

/-! ## Scoring loop as a sum of per-pick contributions -/

/-- One iteration of the pick loop adds the pick's two contributions to the
accumulator. -/
theorem pickStep_eq (res : List ResultRecord) (acc : Nat × Nat) (p : String × Option String) :
    pickStep res acc p = (acc.1 + scoreContrib res p, acc.2 + maxContrib res p) := by
  unfold pickStep scoreContrib maxContrib
  cases hr : roundsLookup res p.1
  · simp
  · cases ha : resultsLookup res p.1 with
    | none => cases hp : p.2 <;> simp [ha, hp]
    | some actual =>
      cases hp : p.2 with
      | none => simp [ha, hp]
      | some picked =>
        simp only [ha, hp]
        by_cases he : picked = actual <;> simp [he]

/-- The pick-loop fold started anywhere equals the start plus the two sums. -/
theorem foldl_pickStep_eq_sum (res : List ResultRecord) :
    ∀ (b : PickMap) (acc : Nat × Nat),
      b.foldl (pickStep res) acc
        = (acc.1 + (b.map (scoreContrib res)).sum, acc.2 + (b.map (maxContrib res)).sum) := by
  intro b
  induction b with
  | nil => intro acc; simp
  | cons p t ih =>
    intro acc
    rw [List.foldl_cons, pickStep_eq, ih]
    simp [Nat.add_assoc]

/-- The `(score, max_possible)` pair of one source is the pair of sums of the
per-pick contributions. -/
theorem scorePair_sum (res : List ResultRecord) (b : PickMap) :
    scorePair res b = ((b.map (scoreContrib res)).sum, (b.map (maxContrib res)).sum) := by
  rw [scorePair, foldl_pickStep_eq_sum]
  simp

/-! ## C6 -/

/-- C6: a pick whose matchup_id has no record in the effective result set is
silently skipped: it contributes 0 to the source's score and 0 to its
max_possible, so removing it does not change either total (and the scorer,
being a total function, raises no error). -/
theorem C6_missing_matchup_pick_skipped (res : List ResultRecord) (b1 b2 : PickMap)
    (mid : String) (w : Option String) (h : ∀ r ∈ res, r.matchup_id ≠ mid) :
    scorePair res (b1 ++ (mid, w) :: b2) = scorePair res (b1 ++ b2) := by
  have hnotin : mid ∉ res.map fun r => r.matchup_id := by
    intro hc
    rcases List.mem_map.mp hc with ⟨r, hr, he⟩
    exact h r hr he
  have hnone : roundsLookup res mid = none := by
    unfold roundsLookup
    rw [filter_key_eq_nil res mid hnotin]
    rfl
  unfold scorePair
  rw [List.foldl_append, List.foldl_append, List.foldl_cons]
  congr 1
  unfold pickStep
  simp [hnone]

/-- Witness for C6: the pick on m2 (absent from the single effective record for
m1) contributes nothing. -/
theorem C6_missing_matchup_pick_skipped_witness :
    scorePair [⟨"m1", "A", 1⟩] ([] ++ ("m2", some "A") :: [])
      = scorePair [⟨"m1", "A", 1⟩] ([] ++ []) :=
  C6_missing_matchup_pick_skipped [⟨"m1", "A", 1⟩] [] [] "m2" (some "A") (by decide)

/-! ## C7 -/

/-- C7: a pick whose effective round has no entry in ROUND_POINTS is scored
with `ROUND_POINTS.get(rnd, 0) = 0` rather than an error: it adds 0 to the
score and 0 to max_possible, so removing it changes neither total. -/
theorem C7_unknown_round_zero_points (res : List ResultRecord) (b1 b2 : PickMap)
    (mid : String) (w : Option String) (rnd : Nat)
    (h1 : roundsLookup res mid = some rnd) (h2 : ROUND_POINTS rnd = none) :
    scorePair res (b1 ++ (mid, w) :: b2) = scorePair res (b1 ++ b2) := by
  unfold scorePair
  rw [List.foldl_append, List.foldl_append, List.foldl_cons]
  congr 1
  generalize List.foldl (pickStep res) (0, 0) b1 = acc
  unfold pickStep
  simp only [h1, h2, Option.getD_none]
  cases ha : resultsLookup res mid <;> cases hw : w <;> simp [ha, hw]

/-- Witness for C7: effective record for m1 carries round 7, which has no
ROUND_POINTS entry, so the (correct) pick on m1 contributes nothing. -/
theorem C7_unknown_round_zero_points_witness :
    scorePair [⟨"m1", "A", 7⟩] ([] ++ ("m1", some "A") :: [])
      = scorePair [⟨"m1", "A", 7⟩] ([] ++ []) :=
  C7_unknown_round_zero_points [⟨"m1", "A", 7⟩] [] [] "m1" (some "A") 7 (by decide) (by decide)

/-! ## C8 -/

/-- With pairwise distinct matchup_ids, at most one row survives the filter
for any single matchup_id. -/
theorem filter_key_length_le_one :
    ∀ res : List ResultRecord, (res.map fun r => r.matchup_id).Nodup →
      ∀ mid, (res.filter fun r => r.matchup_id == mid).length ≤ 1 := by
  intro res
  induction res with
  | nil =>
    intro _ mid
    simp
  | cons r t ih =>
    intro h mid
    simp only [List.map_cons, List.nodup_cons] at h
    obtain ⟨hnotin, hnd⟩ := h
    rw [List.filter_cons]
    by_cases hr : r.matchup_id = mid
    · rw [if_pos (by simp [hr])]
      have ht : t.filter (fun x => x.matchup_id == mid) = [] :=
        filter_key_eq_nil t mid (hr ▸ hnotin)
      simp [ht]
    · rw [if_neg (by simp [hr])]
      exact ih hnd mid

/-- Permuting effective records with pairwise distinct matchup_ids leaves each
matchup_id's (unique) filtered row list literally unchanged. -/
theorem filter_key_perm (res1 res2 : List ResultRecord) (hp : res1.Perm res2)
    (hn : (res1.map fun r => r.matchup_id).Nodup) (mid : String) :
    res1.filter (fun r => r.matchup_id == mid) = res2.filter (fun r => r.matchup_id == mid) := by
  have hperm := hp.filter (fun r => r.matchup_id == mid)
  have hlen := filter_key_length_le_one res1 hn mid
  cases hl : res1.filter (fun r => r.matchup_id == mid) with
  | nil =>
    rw [hl] at hperm
    exact (hperm.symm.eq_nil).symm
  | cons a l2 =>
    rw [hl] at hperm hlen
    cases l2 with
    | cons b l3 =>
      simp at hlen
    | nil =>
      exact (List.perm_singleton.mp hperm.symm).symm

/-- Both result-dict lookups are invariant under permuting records with
pairwise distinct matchup_ids. -/
theorem lookups_perm (res1 res2 : List ResultRecord) (hp : res1.Perm res2)
    (hn : (res1.map fun r => r.matchup_id).Nodup) (mid : String) :
    roundsLookup res1 mid = roundsLookup res2 mid
    ∧ resultsLookup res1 mid = resultsLookup res2 mid := by
  unfold roundsLookup resultsLookup
  rw [filter_key_perm res1 res2 hp hn mid]
  exact ⟨rfl, rfl⟩

/-- A source's totals are unchanged when its picks are permuted and the result
records are permuted (with distinct matchup_ids), because both totals are sums
of per-pick contributions that depend only on the dict lookups. -/
theorem scorePair_perm_congr (res1 res2 : List ResultRecord)
    (hlook : ∀ mid, roundsLookup res1 mid = roundsLookup res2 mid
        ∧ resultsLookup res1 mid = resultsLookup res2 mid)
    (b1 b2 : PickMap) (hb : b1.Perm b2) :
    scorePair res1 b1 = scorePair res2 b2 := by
  rw [scorePair_sum, scorePair_sum]
  have hsc : ∀ p : String × Option String, scoreContrib res1 p = scoreContrib res2 p := by
    intro p
    unfold scoreContrib
    rw [(hlook p.1).1, (hlook p.1).2]
  have hmc : ∀ p : String × Option String, maxContrib res1 p = maxContrib res2 p := by
    intro p
    unfold maxContrib
    rw [(hlook p.1).1]
  have h1 : (b1.map (scoreContrib res1)).sum = (b2.map (scoreContrib res2)).sum := by
    rw [List.map_congr_left fun p _ => hsc p]
    exact (hb.map (scoreContrib res2)).sum_eq
  have h2 : (b1.map (maxContrib res1)).sum = (b2.map (maxContrib res2)).sum := by
    rw [List.map_congr_left fun p _ => hmc p]
    exact (hb.map (maxContrib res2)).sum_eq
  rw [h1, h2]

/-- C8: the scorer is order-independent over its pick iteration: permuting the
picks within each source (sources kept in order) and permuting the effective
result records (whose matchup_ids are pairwise distinct) yields a leaderboard
with identical rows — here literally the same list, which in particular has
the same (source, score, max_possible) content. -/
theorem C8_score_order_independent (picks1 picks2 : Picks) (res1 res2 : List ResultRecord)
    (hpk : List.Forall₂ (fun a b : String × PickMap => a.1 = b.1 ∧ a.2.Perm b.2) picks1 picks2)
    (hres : res1.Perm res2) (hn : (res1.map fun r => r.matchup_id).Nodup) :
    score_brackets picks1 res1 = score_brackets picks2 res2 := by
  have hlook := fun mid => lookups_perm res1 res2 hres hn mid
  have hrows : (picks1.map fun nb =>
        ({ bracket := nb.1
           score := (scorePair res1 nb.2).1
           max_possible := (scorePair res1 nb.2).2 } : LBRow))
      = picks2.map fun nb =>
        ({ bracket := nb.1
           score := (scorePair res2 nb.2).1
           max_possible := (scorePair res2 nb.2).2 } : LBRow) := by
    induction hpk with
    | nil => rfl
    | cons hab htail ih =>
      obtain ⟨hname, hperm⟩ := hab
      have hsp := scorePair_perm_congr res1 res2 hlook _ _ hperm
      simp only [List.map_cons, ih, hsp, hname]
  show List.insertionSort lbRel _ = List.insertionSort lbRel _
  rw [hrows]

/-- Witness for C8: one source with its two picks swapped, and the two
effective records swapped, gives the same leaderboard. -/
theorem C8_score_order_independent_witness :
    score_brackets [("x", [("m1", some "A"), ("m2", some "B")])]
        [⟨"m1", "A", 1⟩, ⟨"m2", "C", 2⟩]
      = score_brackets [("x", [("m2", some "B"), ("m1", some "A")])]
        [⟨"m2", "C", 2⟩, ⟨"m1", "A", 1⟩] :=
  C8_score_order_independent _ _ _ _
    (List.Forall₂.cons ⟨rfl, by decide⟩ List.Forall₂.nil) (by decide) (by decide)

/-! ## C9 -/

/-- The What-If handler accepts every override: the applied record (with the
given matchup_id, winner_id and round) is always present in the updated
overlay, with no validation against any matchup universe. -/
theorem apply_override_accepts (ov : List ResultRecord) (mid w : String) (rnd : Nat) :
    ({ matchup_id := mid, winner_id := w, round := rnd } : ResultRecord)
      ∈ apply_override ov mid w rnd := by
  unfold apply_override
  by_cases hany : (ov.any fun r => r.matchup_id == mid) = true
  · have hne : ov.isEmpty = false := by
      cases ov
      · simp at hany
      · rfl
    simp only [hne, hany, Bool.not_false, Bool.and_self, if_true]
    rcases List.any_eq_true.mp hany with ⟨r, hr, he⟩
    refine List.mem_map.mpr ⟨r, hr, ?_⟩
    have hkey : r.matchup_id = mid := beq_iff_eq.mp he
    rw [if_pos hkey]
    cases r
    simp_all
  · have hcond : (!ov.isEmpty && (ov.any fun r => r.matchup_id == mid)) = false := by
      rw [Bool.not_eq_true] at hany
      simp [hany]
    simp [hcond]

/-- Appending an effective record whose matchup_id no source picks leaves every
source's totals, hence the whole leaderboard, unchanged. -/
theorem score_append_unpicked (picks : Picks) (res : List ResultRecord) (o : ResultRecord)
    (h : ∀ nb ∈ picks, ∀ p ∈ nb.2, p.1 ≠ o.matchup_id) :
    score_brackets picks (res ++ [o]) = score_brackets picks res := by
  show List.insertionSort lbRel _ = List.insertionSort lbRel _
  congr 1
  refine List.map_congr_left fun nb hnb => ?_
  have hfil : ∀ p ∈ nb.2,
      (res ++ [o]).filter (fun r => r.matchup_id == p.1)
        = res.filter fun r => r.matchup_id == p.1 := by
    intro p hp
    have hne : p.1 ≠ o.matchup_id := h nb hnb p hp
    rw [List.filter_append]
    have hsing : (([o] : List ResultRecord).filter fun r => r.matchup_id == p.1) = [] := by
      have hb : (o.matchup_id == p.1) = false :=
        beq_eq_false_iff_ne.mpr fun hc => hne hc.symm
      simp [List.filter_cons, hb]
    rw [hsing, List.append_nil]
  have hsp : scorePair (res ++ [o]) nb.2 = scorePair res nb.2 := by
    rw [scorePair_sum, scorePair_sum]
    have h1 : nb.2.map (scoreContrib (res ++ [o])) = nb.2.map (scoreContrib res) := by
      refine List.map_congr_left fun p hp => ?_
      unfold scoreContrib roundsLookup resultsLookup
      rw [hfil p hp]
    have h2 : nb.2.map (maxContrib (res ++ [o])) = nb.2.map (maxContrib res) := by
      refine List.map_congr_left fun p hp => ?_
      unfold maxContrib roundsLookup
      rw [hfil p hp]
    rw [h1, h2]
  rw [hsp]

/-- C9: an override for a matchup_id no source picks is inert and accepted:
adding such a record to the effective set leaves every leaderboard row's score
and max_possible unchanged (the leaderboard is literally equal), and the
What-If handler stores the record rather than rejecting it. -/
theorem C9_unpicked_override_inert (picks : Picks) (res ov : List ResultRecord)
    (o : ResultRecord) (h : ∀ nb ∈ picks, ∀ p ∈ nb.2, p.1 ≠ o.matchup_id) :
    score_brackets picks (res ++ [o]) = score_brackets picks res
    ∧ o ∈ apply_override ov o.matchup_id o.winner_id o.round :=
  ⟨score_append_unpicked picks res o h,
    apply_override_accepts ov o.matchup_id o.winner_id o.round⟩

/-- Witness for C9: record m9 is picked by no source; adding it changes
nothing and applying it as an override stores it. -/
theorem C9_unpicked_override_inert_witness :
    score_brackets [("x", [("m1", some "A")])] ([⟨"m1", "A", 1⟩] ++ [⟨"m9", "B", 2⟩])
        = score_brackets [("x", [("m1", some "A")])] [⟨"m1", "A", 1⟩]
    ∧ (⟨"m9", "B", 2⟩ : ResultRecord) ∈ apply_override []
        (⟨"m9", "B", 2⟩ : ResultRecord).matchup_id
        (⟨"m9", "B", 2⟩ : ResultRecord).winner_id
        (⟨"m9", "B", 2⟩ : ResultRecord).round :=
  C9_unpicked_override_inert [("x", [("m1", some "A")])] [⟨"m1", "A", 1⟩] [] ⟨"m9", "B", 2⟩
    (by decide)

/-! ## C5 -/

/-- C5: the leaderboard is sorted by `lbRel`: descending by score with ties
broken by descending max_possible; in particular whenever a row precedes
another of equal score, the earlier row's max_possible is at least the later
row's, so of two equal-score sources the one with the higher max_possible
appears first. -/
theorem C5_leaderboard_sorted (picks : Picks) (res : List ResultRecord) :
    (score_brackets picks res).Sorted lbRel
    ∧ (score_brackets picks res).Pairwise
        fun a b => a.score = b.score → b.max_possible ≤ a.max_possible := by
  have hs : (score_brackets picks res).Sorted lbRel := by
    show (List.insertionSort lbRel _).Sorted lbRel
    exact List.sorted_insertionSort lbRel _
  refine ⟨hs, List.Pairwise.imp ?_ hs⟩
  intro a b hab
  intro heq
  unfold lbRel at hab
  omega

/-! ## Extractor dictionary lemmas -/

/-- The dict membership test is the existence of an entry with that key. -/
theorem keyMem_iff {α : Type _} (d : List (String × α)) (k : String) :
    keyMem d k = true ↔ ∃ p ∈ d, p.1 = k := by
  unfold keyMem
  rw [List.any_eq_true]
  constructor
  · rintro ⟨p, hp, he⟩
    exact ⟨p, hp, beq_iff_eq.mp he⟩
  · rintro ⟨p, hp, he⟩
    exact ⟨p, hp, beq_iff_eq.mpr he⟩

/-- A fold preserves any property each step preserves. -/
theorem foldl_pres {σ α : Type _} (f : σ → α → σ) (P : σ → Prop)
    (hstep : ∀ s a, P s → P (f s a)) :
    ∀ (l : List α) (init : σ), P init → P (l.foldl f init) := by
  intro l
  induction l with
  | nil =>
    intro init h
    exact h
  | cons a t ih =>
    intro init h
    exact ih (f init a) (hstep init a h)

/-- A fold over a list containing `x` satisfies any property that processing
`x` establishes and every step preserves. -/
theorem foldl_estab {σ α : Type _} (f : σ → α → σ) (P : σ → Prop)
    (hstep : ∀ s a, P s → P (f s a)) (x : α) (hx : ∀ s, P (f s x)) :
    ∀ (l : List α) (init : σ), x ∈ l → P (l.foldl f init) := by
  intro l
  induction l with
  | nil =>
    intro init h
    simp at h
  | cons a t ih =>
    intro init h
    rcases List.mem_cons.mp h with he | ht
    · rw [List.foldl_cons]
      exact foldl_pres f P hstep t (f init a) (he ▸ hx init)
    · rw [List.foldl_cons]
      exact ih (f init a) ht

/-- `d[mid] = v` makes `mid` a key of the dict. -/
theorem keyMem_dictInsert_self (d : PickMap) (mid : String) (v : Option String) :
    keyMem (dictInsert d mid v) mid = true := by
  unfold dictInsert
  by_cases hany : (d.any fun p => p.1 == mid) = true
  · rw [if_pos hany, keyMem_iff]
    obtain ⟨p, hp, he⟩ := (keyMem_iff d mid).mp hany
    refine ⟨if p.1 = mid then (p.1, v) else p, List.mem_map_of_mem _ hp, ?_⟩
    rw [if_pos he]
    exact he
  · rw [if_neg hany, keyMem_iff]
    exact ⟨(mid, v), List.mem_append_right _ (by simp), rfl⟩

/-- `d[mid] = v` keeps every existing key of the dict. -/
theorem keyMem_dictInsert_mono (d : PickMap) (mid k : String) (v : Option String)
    (h : keyMem d k = true) : keyMem (dictInsert d mid v) k = true := by
  rw [keyMem_iff] at h ⊢
  obtain ⟨p, hp, he⟩ := h
  unfold dictInsert
  by_cases hany : (d.any fun p => p.1 == mid) = true
  · rw [if_pos hany]
    refine ⟨if p.1 = mid then (p.1, v) else p, List.mem_map_of_mem _ hp, ?_⟩
    by_cases hq : p.1 = mid
    · rw [if_pos hq]
      exact he
    · rw [if_neg hq]
      exact he
  · rw [if_neg hany]
    exact ⟨p, List.mem_append_left _ hp, he⟩

/-- The upsert keeps every existing outer key. -/
theorem keyMem_dictUpsertInner_mono (out : Picks) (src mid s : String) (v : Option String)
    (h : keyMem out s = true) : keyMem (dictUpsertInner out src mid v) s = true := by
  rw [keyMem_iff] at h ⊢
  obtain ⟨p, hp, he⟩ := h
  unfold dictUpsertInner
  by_cases hany : (out.any fun p => p.1 == src) = true
  · rw [if_pos hany]
    refine ⟨if p.1 = src then (p.1, dictInsert p.2 mid v) else p,
      List.mem_map_of_mem _ hp, ?_⟩
    by_cases hq : p.1 = src
    · rw [if_pos hq]
      exact he
    · rw [if_neg hq]
      exact he
  · rw [if_neg hany]
    exact ⟨p, List.mem_append_left _ hp, he⟩

/-- `find?` over a key-preserving map is the mapped `find?`. -/
theorem find?_key_map (f : (String × PickMap) → String × PickMap)
    (hf : ∀ p, (f p).1 = p.1) (s : String) :
    ∀ out : Picks,
      (out.map f).find? (fun p => p.1 == s) = (out.find? fun p => p.1 == s).map f := by
  intro out
  induction out with
  | nil => rfl
  | cons p t ih =>
    by_cases hp : (p.1 == s) = true
    · have hfp : ((f p).1 == s) = true := by
        rw [hf p]
        exact hp
      rw [List.map_cons,
        @List.find?_cons_of_pos _ (fun q => q.1 == s) (f p) (t.map f) hfp,
        @List.find?_cons_of_pos _ (fun q => q.1 == s) p t hp, Option.map_some']
    · have hp2 : ¬ ((fun q : String × PickMap => q.1 == s) p = true) := hp
      have hfp : ¬ ((fun q : String × PickMap => q.1 == s) (f p) = true) := by
        show ¬ ((f p).1 == s) = true
        rw [hf p]
        exact hp
      rw [List.map_cons,
        @List.find?_cons_of_neg _ (fun q => q.1 == s) (f p) (t.map f) hfp,
        @List.find?_cons_of_neg _ (fun q => q.1 == s) p t hp2, ih]

/-- After the upsert, source `src` is mapped to an inner dict carrying `mid`. -/
theorem innerHasKey_upsert_self (out : Picks) (src mid : String) (v : Option String) :
    innerHasKey (dictUpsertInner out src mid v) src mid = true := by
  unfold dictUpsertInner innerHasKey dictGet
  by_cases hany : (out.any fun p => p.1 == src) = true
  · rw [if_pos hany]
    rw [find?_key_map _ (fun p => by by_cases hq : p.1 = src <;> simp [hq]) src out]
    obtain ⟨q, hq, hqs⟩ := List.any_eq_true.mp hany
    cases hfind : out.find? fun p => p.1 == src with
    | none =>
      exact absurd (List.find?_eq_none.mp hfind q hq) (by simp [hqs])
    | some q2 =>
      have hq2b := List.find?_some hfind
      have hq2 : q2.1 = src := beq_iff_eq.mp hq2b
      rw [Option.map_some']
      rw [if_pos hq2]
      exact keyMem_dictInsert_self q2.2 mid v
  · rw [if_neg hany]
    have hnone : (out.find? fun p => p.1 == src) = none := by
      rw [List.find?_eq_none]
      intro p hp hc
      exact hany ((keyMem_iff out src).mpr ⟨p, hp, beq_iff_eq.mp hc⟩)
    rw [List.find?_append, hnone, Option.none_or,
      @List.find?_cons_of_pos _ (fun q => q.1 == src) (src, dictInsert [] mid v) [] (by simp)]
    exact keyMem_dictInsert_self [] mid v

/-- The upsert keeps every (source, matchup_id) pair already recorded. -/
theorem innerHasKey_upsert_mono (out : Picks) (src mid s k : String) (v : Option String)
    (h : innerHasKey out s k = true) :
    innerHasKey (dictUpsertInner out src mid v) s k = true := by
  unfold innerHasKey dictGet at h
  cases hfind : out.find? fun p => p.1 == s with
  | none =>
    rw [hfind] at h
    simp at h
  | some q =>
    rw [hfind] at h
    simp only [Option.map_some'] at h
    unfold innerHasKey dictGet dictUpsertInner
    by_cases hany : (out.any fun p => p.1 == src) = true
    · rw [if_pos hany]
      rw [find?_key_map _ (fun p => by by_cases hq : p.1 = src <;> simp [hq]) s out, hfind]
      rw [Option.map_some']
      by_cases hq : q.1 = src
      · rw [if_pos hq]
        exact keyMem_dictInsert_mono q.2 mid k v h
      · rw [if_neg hq]
        exact h
    · rw [if_neg hany]
      rw [List.find?_append, hfind]
      simpa using h

/-- Processing one bracket row keeps every existing outer key. -/
theorem keyMem_extractStep (cols : List String) (out : Picks) (row : BracketRow) (s : String)
    (h : keyMem out s = true) : keyMem (extractStep cols out row) s = true := by
  unfold extractStep
  refine foldl_pres _ (fun o => keyMem o s = true) ?_ pick_cols _ ?_
  · intro o col ho
    by_cases hc : col ∈ cols
    · rw [if_pos hc]
      exact keyMem_dictUpsertInner_mono o (replace_winner col) row.matchup_id s (row.getCol col) ho
    · rw [if_neg hc]
      exact ho
  · exact keyMem_dictUpsertInner_mono out "m_rating" row.matchup_id s _ h

/-- Processing one bracket row keeps every (source, matchup_id) pair already
recorded. -/
theorem innerHasKey_extractStep_mono (cols : List String) (out : Picks) (row : BracketRow)
    (s k : String) (h : innerHasKey out s k = true) :
    innerHasKey (extractStep cols out row) s k = true := by
  unfold extractStep
  refine foldl_pres _ (fun o => innerHasKey o s k = true) ?_ pick_cols _ ?_
  · intro o col ho
    by_cases hc : col ∈ cols
    · rw [if_pos hc]
      exact innerHasKey_upsert_mono o (replace_winner col) row.matchup_id s k (row.getCol col) ho
    · rw [if_neg hc]
      exact ho
  · exact innerHasKey_upsert_mono out "m_rating" row.matchup_id s k _ h

/-- Processing a bracket row records its matchup_id under "m_rating". -/
theorem extractStep_records_m_rating (cols : List String) (out : Picks) (row : BracketRow) :
    innerHasKey (extractStep cols out row) "m_rating" row.matchup_id = true := by
  unfold extractStep
  refine foldl_pres _ (fun o => innerHasKey o "m_rating" row.matchup_id = true) ?_ pick_cols _ ?_
  · intro o col ho
    by_cases hc : col ∈ cols
    · rw [if_pos hc]
      exact innerHasKey_upsert_mono o (replace_winner col) row.matchup_id "m_rating"
        row.matchup_id (row.getCol col) ho
    · rw [if_neg hc]
      exact ho
  · exact innerHasKey_upsert_self out "m_rating" row.matchup_id _

/-- Processing a bracket row records its matchup_id under each alternate source
whose column is present in the DataFrame. -/
theorem extractStep_records_alt (cols : List String) (out : Picks) (row : BracketRow)
    (col : String) (hcol : col ∈ pick_cols) (hin : col ∈ cols) :
    innerHasKey (extractStep cols out row) (replace_winner col) row.matchup_id = true := by
  unfold extractStep
  refine foldl_estab _ (fun o => innerHasKey o (replace_winner col) row.matchup_id = true)
    ?_ col ?_ pick_cols _ hcol
  · intro o c ho
    by_cases hc : c ∈ cols
    · rw [if_pos hc]
      exact innerHasKey_upsert_mono o (replace_winner c) row.matchup_id (replace_winner col)
        row.matchup_id (row.getCol c) ho
    · rw [if_neg hc]
      exact ho
  · intro o
    rw [if_pos hin]
    exact innerHasKey_upsert_self o (replace_winner col) row.matchup_id _

/-! ## C4 -/

/-- C4 counterexample: a bracket row whose primary pick is null (the row's
`predicted_winner` is None) nevertheless produces an entry for its matchup_id
in the "m_rating" inner mapping — the recorded value is the null itself — so
the extractor does NOT omit matchup_ids whose pick value is null. -/
theorem C4_null_pick_recorded_counterexample :
    dictGet (snapshot_picks_to_brackets ⟨[], [⟨"m1", fun _ => none⟩]⟩) "m_rating"
      = some [("m1", (none : Option String))]
    ∧ (BracketRow.mk "m1" fun _ => none).getCol "predicted_winner" = none := by
  exact ⟨rfl, rfl⟩

/-- C4 as amended: the extractor records an entry for EVERY row's matchup_id
under "m_rating", and under each alternate source whose column is present in
the bracket DataFrame, whether or not the pick value is null; a null pick is
recorded as a null-valued entry rather than omitted. -/
theorem C4_extractor_records_every_row (df : BracketDF) (row : BracketRow)
    (hrow : row ∈ df.rows) :
    innerHasKey (snapshot_picks_to_brackets df) "m_rating" row.matchup_id = true
    ∧ ∀ col ∈ pick_cols, col ∈ df.cols →
        innerHasKey (snapshot_picks_to_brackets df) (replace_winner col) row.matchup_id
          = true := by
  constructor
  · unfold snapshot_picks_to_brackets
    refine foldl_estab (extractStep df.cols)
      (fun o => innerHasKey o "m_rating" row.matchup_id = true)
      (fun s a hs => innerHasKey_extractStep_mono df.cols s a "m_rating" row.matchup_id hs)
      row (fun s => extractStep_records_m_rating df.cols s row) df.rows _ hrow
  · intro col hcol hin
    unfold snapshot_picks_to_brackets
    refine foldl_estab (extractStep df.cols)
      (fun o => innerHasKey o (replace_winner col) row.matchup_id = true)
      (fun s a hs =>
        innerHasKey_extractStep_mono df.cols s a (replace_winner col) row.matchup_id hs)
      row (fun s => extractStep_records_alt df.cols s row col hcol hin) df.rows _ hrow

/-- Witness for the amended C4: a one-row bracket with a null primary pick and
a present (null-valued) kenpom column still records the row's matchup_id under
both sources. -/
theorem C4_extractor_records_every_row_witness :
    innerHasKey (snapshot_picks_to_brackets ⟨["kenpom_winner"], [⟨"m1", fun _ => none⟩]⟩)
        "m_rating" (BracketRow.mk "m1" fun _ => none).matchup_id = true
    ∧ ∀ col ∈ pick_cols,
        col ∈ (BracketDF.mk ["kenpom_winner"] [⟨"m1", fun _ => none⟩]).cols →
        innerHasKey (snapshot_picks_to_brackets ⟨["kenpom_winner"], [⟨"m1", fun _ => none⟩]⟩)
          (replace_winner col) (BracketRow.mk "m1" fun _ => none).matchup_id = true :=
  C4_extractor_records_every_row ⟨["kenpom_winner"], [⟨"m1", fun _ => none⟩]⟩
    ⟨"m1", fun _ => none⟩ (List.Mem.head _)

/-! ## C10 -/

/-- C10: the fixed source key "m_rating" is always present in the extractor
output (initialised before the row loop), so the leaderboard always carries a
row for source "m_rating"; for an empty bracket the whole leaderboard is the
single row ("m_rating", 0, 0). -/
theorem C10_m_rating_always_present :
    (∀ df : BracketDF, keyMem (snapshot_picks_to_brackets df) "m_rating" = true)
    ∧ (∀ (df : BracketDF) (res : List ResultRecord),
        ∃ lbrow ∈ score_brackets (snapshot_picks_to_brackets df) res,
          lbrow.bracket = "m_rating")
    ∧ (∀ (cols : List String) (res : List ResultRecord),
        score_brackets (snapshot_picks_to_brackets ⟨cols, []⟩) res
          = [{ bracket := "m_rating", score := 0, max_possible := 0 }]) := by
  have hkey : ∀ df : BracketDF, keyMem (snapshot_picks_to_brackets df) "m_rating" = true := by
    intro df
    unfold snapshot_picks_to_brackets
    refine foldl_pres _ (fun o => keyMem o "m_rating" = true)
      (fun s a hs => keyMem_extractStep df.cols s a "m_rating" hs) df.rows _ ?_
    exact (keyMem_iff _ _).mpr ⟨("m_rating", []), by simp, rfl⟩
  refine ⟨hkey, fun df res => ?_, fun cols res => rfl⟩
  obtain ⟨p, hp, he⟩ := (keyMem_iff _ _).mp (hkey df)
  refine ⟨{ bracket := p.1
            score := (scorePair res p.2).1
            max_possible := (scorePair res p.2).2 }, ?_, he⟩
  show _ ∈ List.insertionSort lbRel ((snapshot_picks_to_brackets df).map fun nb =>
    ({ bracket := nb.1
       score := (scorePair res nb.2).1
       max_possible := (scorePair res nb.2).2 } : LBRow))
  exact ((List.perm_insertionSort lbRel _).mem_iff).mpr (List.mem_map_of_mem _ hp)
